import Mathlib

/-!
Shallow embedding of the retrieval core of the Agentic RAG repository:
the FAISS-backed vector store (`app/services/vector_store.py`) and the
retrieve → grade → rewrite → generate control loop
(`app/services/rag_pipeline.py`).

The embedding model (Sentence-Transformers) is treated as an opaque
deterministic function `enc : String → Vec`; the FAISS `IndexFlatL2` is a
dense list of its rows, with exact nearest-neighbour search by squared
Euclidean distance modelled by a stable sort.  The Groq completion port is
an opaque fallible oracle `comp : Nat → Except String String`, indexed by
the number of completion calls made so far in the run.
-/

namespace AgenticRag

/-- An embedding vector (a row of the FAISS matrix).  Components are
modelled as integers; nothing in the verified code depends on the field. -/
abbrev Vec := List Int

/-- The per-vector metadata dict stored in `VectorStore._meta`:
`{"doc_id": ..., "doc_name": ..., "chunk_index": ..., "text": ..., "deleted": ...}`. -/
structure ChunkMeta where
  doc_id : String
  doc_name : String
  chunk_index : Nat
  text : String
  deleted : Bool
deriving DecidableEq, Repr

/-- Python `dict` lookup on an insertion-ordered association list. -/
def dictGet {α : Type} : List (String × α) → String → Option α
  | [], _ => none
  | (k', v) :: rest, k => if k' = k then some v else dictGet rest k

/-- Python `dict.__setitem__`: update in place if the key exists, else
append a new entry at the end. -/
def dictSet {α : Type} : List (String × α) → String → α → List (String × α)
  | [], k, v => [(k, v)]
  | (k', v') :: rest, k, v =>
      if k' = k then (k', v) :: rest else (k', v') :: dictSet rest k v

/-- Python `dict.pop(k, ...)`: drop the entry with the given key. -/
def dictRemove {α : Type} : List (String × α) → String → List (String × α)
  | [], _ => []
  | (k', v') :: rest, k =>
      if k' = k then dictRemove rest k else (k', v') :: dictRemove rest k

/-- Python `d.setdefault(k, []).append(p)` for the doc → positions map. -/
def dictAppendAt : List (String × List Nat) → String → Nat → List (String × List Nat)
  | [], k, p => [(k, [p])]
  | (k', v) :: rest, k, p =>
      if k' = k then (k', v ++ [p]) :: rest else (k', v) :: dictAppendAt rest k p

/-- The mutable state of `VectorStore`: the FAISS matrix (`_index`), the
parallel metadata list (`_meta`), the document → positions map
(`_doc_map`) and the soft-delete counter (`_del_count`). -/
structure VectorStore where
  index : List Vec
  meta : List (Option ChunkMeta)
  doc_map : List (String × List Nat)
  del_count : Nat
deriving DecidableEq, Repr

/-- The freshly initialised store (`__init__` before `_load`). -/
def emptyStore : VectorStore := ⟨[], [], [], 0⟩

/-- The `while len(self._meta) < n: self._meta.append(None)` padding loop
of `add_chunks`. -/
def padMeta (meta : List (Option ChunkMeta)) (n : Nat) : List (Option ChunkMeta) :=
  meta ++ List.replicate (n - meta.length) none

/-- The `for i, (chunk, pos) in enumerate(zip(chunks, positions))` loop of
`add_chunks`: write one metadata dict per chunk at consecutive positions,
with `chunk_index` counting from 0. -/
def writeMeta (did dn : String) :
    List String → Nat → Nat → List (Option ChunkMeta) → List (Option ChunkMeta)
  | [], _, _, meta => meta
  | c :: cs, i, pos, meta =>
      writeMeta did dn cs (i + 1) (pos + 1) (meta.set pos (some ⟨did, dn, i, c, false⟩))

/-- `VectorStore.add_chunks`: embed the chunks, append the embeddings to
the matrix, write the metadata dicts, and record the fresh positions under
`doc_id` (the assignment `self._doc_map[doc_id] = positions` replaces any
existing entry).  Returns the updated store and `len(chunks)`. -/
def add_chunks (enc : String → Vec) (s : VectorStore) (doc_id doc_name : String)
    (chunks : List String) : VectorStore × Nat :=
  if chunks.isEmpty then (s, 0)
  else
    let start := s.index.length
    ({ index := s.index ++ chunks.map enc
       meta := writeMeta doc_id doc_name chunks 0 start (padMeta s.meta (start + chunks.length))
       doc_map := dictSet s.doc_map doc_id (List.range' start chunks.length)
       del_count := s.del_count }, chunks.length)

/-- One iteration of the `delete_doc` loop body: if the position holds a
metadata dict, mark it deleted and bump the counter, else skip. -/
def markDeleted (acc : List (Option ChunkMeta) × Nat) (pos : Nat) :
    List (Option ChunkMeta) × Nat :=
  match acc.1[pos]? with
  | some (some r) => (acc.1.set pos (some { r with deleted := true }), acc.2 + 1)
  | _ => acc

/-- `VectorStore.delete_doc`: pop the document's positions from the map and
soft-delete each one.  Deleting an unknown document pops nothing. -/
def delete_doc (s : VectorStore) (doc_id : String) : VectorStore :=
  let posns := (dictGet s.doc_map doc_id).getD []
  let md := posns.foldl markDeleted (s.meta, s.del_count)
  { index := s.index, meta := md.1, doc_map := dictRemove s.doc_map doc_id,
    del_count := md.2 }

/-- The `[m for m in self._meta if m and not m.get("deleted")]` filter of
`rebuild_index`. -/
def keepAlive : Option ChunkMeta → Option ChunkMeta
  | some m => if m.deleted then none else some m
  | none => none

/-- The `for pos, m in enumerate(alive): self._doc_map.setdefault(...)` loop
of `rebuild_index`. -/
def rebuildDocMap (alive : List ChunkMeta) : List (String × List Nat) :=
  alive.enum.foldl (fun d pm => dictAppendAt d pm.2.doc_id pm.1) []

/-- `VectorStore.rebuild_index`: keep only non-deleted records, re-embed
their texts into a fresh matrix, rebuild the doc map with fresh positions
and reset the delete counter.  Returns the new store and its `ntotal`. -/
def rebuild_index (enc : String → Vec) (s : VectorStore) : VectorStore × Nat :=
  let alive := s.meta.filterMap keepAlive
  if alive.isEmpty then (emptyStore, 0)
  else
    ({ index := alive.map (fun m => enc m.text)
       meta := alive.map some
       doc_map := rebuildDocMap alive
       del_count := 0 }, alive.length)

/-- Squared Euclidean distance, the metric of `faiss.IndexFlatL2`. -/
def sqDist (a b : Vec) : Int :=
  ((a.zip b).map (fun p => (p.1 - p.2) * (p.1 - p.2))).sum

/-- Insert one `(distance, position)` pair into a list ranked by ascending
distance, before any pair of equal distance (stability: among equal
distances the lower position, inserted first, stays first). -/
def rankedInsert (x : Int × Nat) : List (Int × Nat) → List (Int × Nat)
  | [] => [x]
  | y :: ys => if x.1 ≤ y.1 then x :: y :: ys else y :: rankedInsert x ys

/-- Stable sort of `(distance, position)` pairs by ascending distance. -/
def sortRanked : List (Int × Nat) → List (Int × Nat)
  | [] => []
  | x :: xs => rankedInsert x (sortRanked xs)

/-- Model of `faiss.IndexFlatL2.search`: rank every stored vector by
squared distance to the query (ties by insertion order) and return the
first `fetchK` `(distance, position)` pairs. -/
def faissSearch (index : List Vec) (q : Vec) (fetchK : Nat) : List (Int × Nat) :=
  (sortRanked (index.enum.map (fun iv => (sqDist q iv.2, iv.1)))).take fetchK

/-- A search result: a metadata dict together with its distance score
(`{**meta, "score": float(dist)}`). -/
structure SearchHit where
  meta : ChunkMeta
  score : Int
deriving DecidableEq, Repr

/-- The result-collection loop of `VectorStore.search`: walk the ranked
`(distance, position)` pairs, skip positions with missing or deleted
metadata, append surviving hits, and stop as soon as `k` hits are
collected (the length check runs after each append). -/
def walkHits (meta : List (Option ChunkMeta)) : Nat → List (Int × Nat) → List SearchHit
  | _, [] => []
  | k, di :: rest =>
      match meta[di.2]? with
      | some (some m) =>
          if m.deleted then walkHits meta k rest
          else if k ≤ 1 then [⟨m, di.1⟩]
          else ⟨m, di.1⟩ :: walkHits meta (k - 1) rest
      | _ => walkHits meta k rest

/-- `VectorStore.search`: empty result on an empty matrix, else embed the
query, over-fetch `min(k*4, ntotal)` nearest neighbours and collect up to
`k` surviving hits. -/
def VectorStore.search (enc : String → Vec) (s : VectorStore) (query : String)
    (k : Nat) : List SearchHit :=
  if s.index.length = 0 then []
  else
    let fetchK := min (k * 4) s.index.length
    walkHits s.meta k (faissSearch s.index (enc query) fetchK)

/-- A persisted artifact on disk: absent, present but undeserialisable, or
present with a value. -/
inductive Artifact (α : Type) where
  | missing
  | corrupt
  | valid (a : α)

/-- `VectorStore._load` as a function of the two persisted artifacts
(`index.bin` and `meta.pkl`).  The fields start empty; if both files
exist, `faiss.read_index` runs first and the pickle load second, inside
one `try/except Exception: pass` — so a failing pickle load keeps the
already-assigned matrix while the metadata stays empty. -/
def load_store (idxFile : Artifact (List Vec))
    (metaFile : Artifact (List (Option ChunkMeta) × List (String × List Nat) × Nat)) :
    VectorStore :=
  match idxFile, metaFile with
  | .valid v, .valid md => { index := v, meta := md.1, doc_map := md.2.1, del_count := md.2.2 }
  | .valid v, .corrupt => { emptyStore with index := v }
  | _, _ => emptyStore

/-- All positions owned by some document in the doc → positions map. -/
def ownedPositions (s : VectorStore) : List Nat :=
  (s.doc_map.map Prod.snd).flatten

/-- Decidable test: position `p` holds a record that is not soft-deleted. -/
def aliveAtB (s : VectorStore) (p : Nat) : Bool :=
  match s.meta[p]? with
  | some (some m) => !m.deleted
  | _ => false

/-- Position `p` holds a record that is not soft-deleted. -/
def aliveAt (s : VectorStore) (p : Nat) : Prop :=
  ∃ m, s.meta[p]? = some (some m) ∧ m.deleted = false

/-- The LangGraph `RAGState` TypedDict. -/
structure RAGState where
  query : String
  rewritten_query : String
  retrieved_chunks : List SearchHit
  relevant_chunks : List SearchHit
  answer : String
  sources : List String
  rewrite_count : Nat
  needs_rewrite : Bool
deriving DecidableEq, Repr

/-- The initial state built by `run_rag`. -/
def initialState (query : String) : RAGState :=
  { query := query, rewritten_query := "", retrieved_chunks := [],
    relevant_chunks := [], answer := "", sources := [], rewrite_count := 0,
    needs_rewrite := false }

/-- `state.get("rewritten_query") or state["query"]` (empty string is falsy). -/
def currentQuery (st : RAGState) : String :=
  if st.rewritten_query = "" then st.query else st.rewritten_query

/-- `node_retrieve`: fetch candidates for the current query.  The vector
store and `top_k` are abstracted into the retrieval function `rf`. -/
def node_retrieve (rf : String → List SearchHit) (st : RAGState) : RAGState :=
  { st with retrieved_chunks := rf (currentQuery st) }

/-- Whitespace as stripped by Python `str.strip`. -/
def isSpaceChar (c : Char) : Bool :=
  c = ' ' || c = '\t' || c = '\n' || c = '\r'

/-- Python `str.strip`: drop leading and trailing whitespace. -/
def strTrim (s : String) : String :=
  ⟨(((s.data.dropWhile isSpaceChar).reverse.dropWhile isSpaceChar).reverse)⟩

/-- Python `str.lower` on one (ASCII) character. -/
def lowerChar (c : Char) : Char :=
  if 'A' ≤ c ∧ c ≤ 'Z' then Char.ofNat (c.toNat + 32) else c

/-- Python `str.lower`. -/
def strLower (s : String) : String :=
  ⟨s.data.map lowerChar⟩

/-- Python `str.split(",")` on the character list (`"".split(",") == [""]`). -/
def splitCommaChars : List Char → List (List Char)
  | [] => [[]]
  | c :: cs =>
      if c = ',' then [] :: splitCommaChars cs
      else
        match splitCommaChars cs with
        | [] => [[c]]
        | l :: ls => (c :: l) :: ls

/-- Python `str.split(",")`. -/
def splitComma (s : String) : List String :=
  (splitCommaChars s.data).map (fun l => ⟨l⟩)

/-- Python `str.isdigit`: non-empty and all characters are digits. -/
def isDigits (t : String) : Bool :=
  !t.data.isEmpty && t.data.all Char.isDigit

/-- `int(...)` on a string of digits. -/
def digitsToNat (t : String) : Nat :=
  t.data.foldl (fun n c => n * 10 + (c.toNat - 48)) 0

/-- The grading-response parser of `node_grade`:
`idxs = [int(x.strip()) for x in raw.split(",") if x.strip().isdigit()]`
then `[chunks[i] for i in idxs if i < len(chunks)]`. -/
def parseGrade (raw : String) (chunks : List SearchHit) : List SearchHit :=
  let toks := (splitComma raw).map strTrim
  ((toks.filter isDigits).map digitsToNat).filterMap (fun i => chunks[i]?)

/-- `node_grade`: with no retrieved chunks, skip the LLM and leave
relevance empty; otherwise ask the completion oracle, treating `"none"`
as no relevant chunks, parsing indices otherwise, and keeping all chunks
if the call raises.  `needs_rewrite` is set iff nothing is relevant and
retry budget remains.  Returns the state and the updated call counter. -/
def node_grade (maxR : Nat) (comp : Nat → Except String String) (st : RAGState)
    (calls : Nat) : RAGState × Nat :=
  if st.retrieved_chunks.isEmpty then
    ({ st with relevant_chunks := [],
               needs_rewrite := decide (st.rewrite_count < maxR) }, calls)
  else
    let relevant :=
      match comp calls with
      | .error _ => st.retrieved_chunks
      | .ok content =>
          let raw := strLower (strTrim content)
          if raw = "none" then [] else parseGrade raw st.retrieved_chunks
    ({ st with relevant_chunks := relevant,
               needs_rewrite := relevant.isEmpty && decide (st.rewrite_count < maxR) },
     calls + 1)

/-- `node_rewrite`: ask the oracle for a rewritten query, falling back to
the original query on failure; always increments `rewrite_count` and
clears `needs_rewrite`. -/
def node_rewrite (comp : Nat → Except String String) (st : RAGState)
    (calls : Nat) : RAGState × Nat :=
  let rewritten :=
    match comp calls with
    | .ok content => strTrim content
    | .error _ => st.query
  ({ st with rewritten_query := rewritten,
             rewrite_count := st.rewrite_count + 1, needs_rewrite := false },
   calls + 1)

/-- The fixed not-found answer of `node_generate`. -/
def notFoundAnswer : String :=
  "I couldn't find relevant information in your documents to answer this question. Try rephrasing, or upload documents that contain this information."

/-- The `"doc_name (chunk #N)"` source tag of `node_generate`. -/
def sourceTag (c : SearchHit) : String :=
  c.meta.doc_name ++ " (chunk #" ++ toString (c.meta.chunk_index + 1) ++ ")"

/-- Model of `list({...})` on strings: deduplicate, keeping the first
occurrence (set iteration order is not significant). -/
def dedupFirst : List String → List String
  | [] => []
  | x :: xs => x :: (dedupFirst xs).filter (fun y => y ≠ x)

/-- `node_generate`: use relevant chunks, falling back to retrieved ones;
with no chunks at all return the fixed not-found answer without calling
the oracle; otherwise call the oracle, re-raising its failure as
`RuntimeError(f"LLM generation failed: {e}")` (modelled as `Except.error`). -/
def node_generate (comp : Nat → Except String String) (st : RAGState)
    (calls : Nat) : Except String RAGState × Nat :=
  let chunks := if st.relevant_chunks.isEmpty then st.retrieved_chunks
                else st.relevant_chunks
  if chunks.isEmpty then
    (.ok { st with answer := notFoundAnswer, sources := [] }, calls)
  else
    match comp calls with
    | .error e => (.error ("LLM generation failed: " ++ e), calls + 1)
    | .ok content =>
        (.ok { st with answer := strTrim content,
                       sources := dedupFirst (chunks.map sourceTag) }, calls + 1)

/-- The compiled LangGraph loop:
`retrieve → grade_chunks → (rewrite_query → retrieve)* → generate`.
`fuel` is an artifact of the embedding (the source loop is unbounded);
the termination theorems show any `fuel ≥ maxR + 1` suffices.  Returns
the generated state (or the generation error), the number of completion
calls and the number of retrieval passes. -/
def graphLoop (rf : String → List SearchHit) (comp : Nat → Except String String)
    (maxR : Nat) : Nat → RAGState → Nat → Nat →
    Option (Except String RAGState × Nat × Nat)
  | 0, _, _, _ => none
  | fuel + 1, st, calls, passes =>
      let g := node_grade maxR comp (node_retrieve rf st) calls
      if g.1.needs_rewrite then
        let r := node_rewrite comp g.1 g.2
        graphLoop rf comp maxR fuel r.1 r.2 (passes + 1)
      else
        let gen := node_generate comp g.1 g.2
        some (gen.1, gen.2, passes + 1)

/-- The answer bundle returned by `run_rag` (latency is outside the model). -/
structure RunResult where
  answer : String
  sources : List String
  rewritten_query : String
  chunk_count : Nat
deriving DecidableEq, Repr

/-- `run_rag`: run the graph from the initial state and project the final
state onto the caller-visible result
(`chunk_count = len(relevant_chunks or retrieved_chunks)`). -/
def run_rag (rf : String → List SearchHit) (comp : Nat → Except String String)
    (maxR fuel : Nat) (query : String) :
    Option (Except String RunResult × Nat × Nat) :=
  match graphLoop rf comp maxR fuel (initialState query) 0 0 with
  | none => none
  | some (.error e, c, p) => some (.error e, c, p)
  | some (.ok st, c, p) =>
      some (.ok { answer := st.answer, sources := st.sources,
                  rewritten_query := st.rewritten_query,
                  chunk_count := (if st.relevant_chunks.isEmpty then st.retrieved_chunks
                                  else st.relevant_chunks).length }, c, p)

/-- Number of stored vectors whose record is present and not soft-deleted. -/
def aliveVecCount (s : VectorStore) : Nat :=
  ((List.range s.index.length).filter (fun p => aliveAtB s p)).length

/-- Keep a ranked `(distance, position)` pair only if its position has
present, non-deleted metadata. -/
def resultFilter (meta : List (Option ChunkMeta)) (di : Int × Nat) : Option SearchHit :=
  match meta[di.2]? with
  | some (some m) => if m.deleted then none else some ⟨m, di.1⟩
  | _ => none

/-- The spec's description of `search` (§4.1): empty if the index holds
zero non-deleted vectors; otherwise embed the query, take the
`min(k*4, total_vectors)` nearest neighbours by squared Euclidean distance
over ALL vectors including soft-deleted ones, filter out soft-deleted and
missing-metadata entries in ascending-distance order, and truncate to `k`. -/
def searchSpecification (enc : String → Vec) (s : VectorStore) (query : String)
    (k : Nat) : List SearchHit :=
  if aliveVecCount s = 0 then []
  else
    let ranked := sortRanked (s.index.enum.map (fun iv => (sqDist (enc query) iv.2, iv.1)))
    ((ranked.take (min (k * 4) s.index.length)).filterMap (resultFilter s.meta)).take k

/-- The metadata dicts `add_chunks` writes for chunks `cs`, with
`chunk_index` starting at `i`. -/
def newMetas (did dn : String) : Nat → List String → List (Option ChunkMeta)
  | _, [] => []
  | i, c :: cs => some ⟨did, dn, i, c, false⟩ :: newMetas did dn (i + 1) cs

/-- Effect of one soft-delete mark on a metadata slot. -/
def markOnce : Option (Option ChunkMeta) → Option (Option ChunkMeta)
  | some (some r) => some (some { r with deleted := true })
  | o => o

/-- All positions owned by some entry of a doc → positions map. -/
def ownedOf (dm : List (String × List Nat)) : List Nat :=
  (dm.map Prod.snd).flatten

/-- The consistency invariant tying the doc → positions map to the
metadata list: matrix and metadata lengths agree, keys are unique, owned
positions are pairwise distinct, every owned position holds a live record
of its owning document, and every live record's position is owned. -/
structure StoreInv (s : VectorStore) : Prop where
  len_eq : s.meta.length = s.index.length
  keys_nodup : (s.doc_map.map Prod.fst).Nodup
  owned_nodup : (ownedPositions s).Nodup
  owner_match : ∀ did ps, (did, ps) ∈ s.doc_map → ∀ p ∈ ps,
    ∃ m, s.meta[p]? = some (some m) ∧ m.deleted = false ∧ m.doc_id = did
  alive_owned : ∀ p, aliveAt s p → p ∈ ownedPositions s

/-- States reachable from the empty store when every insert with a
non-empty chunk list targets a document id that has no entry in the map
(the spec's `callers are expected to delete first` discipline). -/
inductive ReachFresh (enc : String → Vec) : VectorStore → Prop
  | empty : ReachFresh enc emptyStore
  | insert {s : VectorStore} (did dn : String) (chunks : List String) :
      ReachFresh enc s → (chunks ≠ [] → dictGet s.doc_map did = none) →
      ReachFresh enc (add_chunks enc s did dn chunks).1
  | delete {s : VectorStore} (did : String) :
      ReachFresh enc s → ReachFresh enc (delete_doc s did)
  | compact {s : VectorStore} :
      ReachFresh enc s → ReachFresh enc (rebuild_index enc s).1

theorem aliveAt_iff_aliveAtB {s : VectorStore} {p : Nat} :
    aliveAt s p ↔ aliveAtB s p = true := by
  unfold aliveAt aliveAtB
  cases h : s.meta[p]? with
  | none => simp
  | some o =>
    cases o with
    | none => simp
    | some m => simp [Bool.not_eq_true']

theorem dictGet_dictSet_self {α : Type} (d : List (String × α)) (k : String) (v : α) :
    dictGet (dictSet d k v) k = some v := by
  induction d with
  | nil => simp [dictGet, dictSet]
  | cons e rest ih =>
      by_cases h : e.1 = k
      · simp [dictSet, h, dictGet]
      · simp [dictSet, h, dictGet, ih]

theorem dictGet_dictSet_ne {α : Type} (d : List (String × α)) {k k' : String} (v : α)
    (h : k' ≠ k) : dictGet (dictSet d k v) k' = dictGet d k' := by
  have hk : k ≠ k' := Ne.symm h
  induction d with
  | nil => simp [dictGet, dictSet, hk]
  | cons e rest ih =>
      by_cases he : e.1 = k
      · have he' : e.1 ≠ k' := by rw [he]; exact hk
        simp [dictSet, he, dictGet, he', hk]
      · simp [dictSet, he, dictGet, ih]

theorem dictGet_eq_none_iff {α : Type} (d : List (String × α)) (k : String) :
    dictGet d k = none ↔ k ∉ d.map Prod.fst := by
  induction d with
  | nil => simp [dictGet]
  | cons e rest ih =>
      by_cases h : e.1 = k
      · simp [dictGet, h]
      · have h' : k ≠ e.1 := fun hk => h hk.symm
        simp [dictGet, h, ih, h']

theorem dictSet_of_get_none {α : Type} {d : List (String × α)} {k : String}
    (h : dictGet d k = none) (v : α) : dictSet d k v = d ++ [(k, v)] := by
  induction d with
  | nil => simp [dictSet]
  | cons e rest ih =>
      by_cases he : e.1 = k
      · simp [dictGet, he] at h
      · simp [dictGet, he] at h
        simp [dictSet, he, ih h]

theorem dictGet_some_mem {α : Type} {d : List (String × α)} {k : String} {v : α}
    (h : dictGet d k = some v) : (k, v) ∈ d := by
  induction d with
  | nil => simp [dictGet] at h
  | cons e rest ih =>
      by_cases he : e.1 = k
      · simp [dictGet, he] at h
        have : e = (k, v) := by
          cases e
          simp_all
        rw [this]
        exact List.mem_cons_self _ _
      · simp [dictGet, he] at h
        exact List.mem_cons_of_mem _ (ih h)

theorem mem_dictRemove_iff {α : Type} {d : List (String × α)} {k : String} {e : String × α} :
    e ∈ dictRemove d k ↔ e ∈ d ∧ e.1 ≠ k := by
  induction d with
  | nil => simp [dictRemove]
  | cons e' rest ih =>
      obtain ⟨k', v'⟩ := e'
      by_cases he : k' = k
      · rw [dictRemove, if_pos he, ih]
        constructor
        · rintro ⟨h1, h2⟩
          exact ⟨List.mem_cons_of_mem _ h1, h2⟩
        · rintro ⟨h1, h2⟩
          rcases List.mem_cons.mp h1 with h1 | h1
          · rw [h1] at h2
            exact absurd he h2
          · exact ⟨h1, h2⟩
      · rw [dictRemove, if_neg he]
        constructor
        · intro hm
          rcases List.mem_cons.mp hm with h1 | h1
          · rw [h1]
            exact ⟨List.mem_cons_self _ _, he⟩
          · obtain ⟨h2, h3⟩ := ih.mp h1
            exact ⟨List.mem_cons_of_mem _ h2, h3⟩
        · rintro ⟨h1, h2⟩
          rcases List.mem_cons.mp h1 with h1 | h1
          · rw [h1]
            exact List.mem_cons_self _ _
          · exact List.mem_cons_of_mem _ (ih.mpr ⟨h1, h2⟩)

/-- C1 (counterexample): insert chunk `"a"` for document `"A"` into the
empty store, then insert chunk `"b"` for the same `"A"`.  The claim says
`"A"`'s position set becomes its previous set `[0]` with the new position
appended, i.e. `[0, 1]`; the code's `self._doc_map[doc_id] = positions`
assignment leaves it as `[1]`. -/
theorem c1_counterexample :
    dictGet (add_chunks (fun _ => ([0] : Vec))
        (add_chunks (fun _ => ([0] : Vec)) emptyStore "A" "doc" ["a"]).1
        "A" "doc" ["b"]).1.doc_map "A" = some [1] ∧
      some ([1] : List Nat) ≠ some [0, 1] := by
  exact ⟨rfl, by decide⟩

/-- C1 (amended): calling `add_chunks` with a non-empty chunk list sets the
document's position set in the map to exactly the freshly appended
positions, replacing (not extending) any previous entry; entries of other
documents are unchanged. -/
theorem c1_add_chunks_replaces (enc : String → Vec) (s : VectorStore)
    (did dn : String) (chunks : List String) (h : chunks ≠ []) :
    dictGet (add_chunks enc s did dn chunks).1.doc_map did
        = some (List.range' s.index.length chunks.length) ∧
      ∀ d', d' ≠ did →
        dictGet (add_chunks enc s did dn chunks).1.doc_map d'
          = dictGet s.doc_map d' := by
  have hne : chunks.isEmpty = false := by
    cases chunks with
    | nil => exact absurd rfl h
    | cons c cs => rfl
  constructor
  · simp only [add_chunks, hne, Bool.false_eq_true, if_false]
    exact dictGet_dictSet_self _ _ _
  · intro d' hd'
    simp only [add_chunks, hne, Bool.false_eq_true, if_false]
    exact dictGet_dictSet_ne _ _ hd'

/-- C1 (witness): the amended theorem applied to a concrete insertion into
the empty store. -/
theorem c1_add_chunks_replaces_witness :
    dictGet (add_chunks (fun _ => ([0] : Vec)) emptyStore "A" "doc" ["a"]).1.doc_map "A"
        = some (List.range' emptyStore.index.length ["a"].length) ∧
      ∀ d', d' ≠ "A" →
        dictGet (add_chunks (fun _ => ([0] : Vec)) emptyStore "A" "doc" ["a"]).1.doc_map d'
          = dictGet emptyStore.doc_map d' :=
  c1_add_chunks_replaces (fun _ => ([0] : Vec)) emptyStore "A" "doc" ["a"] (by decide)

/-- C2 (counterexample): after inserting chunk `"a"` for document `"A"`
and then chunk `"b"` for the same `"A"` (a state reachable from the empty
index by two inserts), position 0 still holds a non-deleted record but is
owned by no document — the union of all documents' position sets (`[1]`)
is strictly smaller than the set of non-deleted positions (`{0, 1}`). -/
theorem c2_counterexample :
    aliveAt (add_chunks (fun _ => ([0] : Vec))
        (add_chunks (fun _ => ([0] : Vec)) emptyStore "A" "doc" ["a"]).1
        "A" "doc" ["b"]).1 0 ∧
      0 ∉ ownedPositions (add_chunks (fun _ => ([0] : Vec))
        (add_chunks (fun _ => ([0] : Vec)) emptyStore "A" "doc" ["a"]).1
        "A" "doc" ["b"]).1 := by
  refine ⟨aliveAt_iff_aliveAtB.mpr (by decide), by decide⟩

/-- C3 (counterexample): insert `"a"` for document `"A"`, insert `"b"`
for `"A"` again, then `delete_doc "A"`.  The delete only marks position 1
(the positions currently in the map); position 0 still holds a
non-deleted record with `doc_id = "A"`, and `search` returns it. -/
theorem c3_counterexample :
    (VectorStore.search (fun _ => ([0] : Vec))
        (delete_doc (add_chunks (fun _ => ([0] : Vec))
          (add_chunks (fun _ => ([0] : Vec)) emptyStore "A" "doc" ["a"]).1
          "A" "doc" ["b"]).1 "A") "query" 1).map (fun h => h.meta.doc_id)
      = ["A"] := by
  decide

/-- C7: when `index.bin` deserialises to a one-row matrix but `meta.pkl`
is corrupt, `_load`'s `except Exception: pass` keeps the already-assigned
matrix while the metadata stays empty: the resulting state is not the
empty-but-valid index the spec (and the code's own `start fresh` comment)
promise — its matrix row count does not even match its record count. -/
theorem c7_load_keeps_partial_matrix :
    load_store (Artifact.valid [[1]]) Artifact.corrupt
        = { index := [[1]], meta := [], doc_map := [], del_count := 0 } ∧
      (load_store (Artifact.valid [[1]]) Artifact.corrupt).meta.length
        ≠ (load_store (Artifact.valid [[1]]) Artifact.corrupt).index.length := by
  exact ⟨rfl, by decide⟩

/-- C10: whatever the completion oracle answers (or however it fails)
during GRADE, every chunk in the resulting relevant list is one of the
retrieved chunks — out-of-range or non-digit index tokens are dropped and
can never make grading fabricate a candidate or fail. -/
theorem c10_grade_subset (maxR : Nat) (comp : Nat → Except String String)
    (st : RAGState) (calls : Nat) (x : SearchHit)
    (hx : x ∈ (node_grade maxR comp st calls).1.relevant_chunks) :
    x ∈ st.retrieved_chunks := by
  unfold node_grade at hx
  by_cases h : st.retrieved_chunks.isEmpty
  · simp [h] at hx
  · simp only [h, Bool.false_eq_true, if_false] at hx
    revert hx
    cases comp calls with
    | error e => simp
    | ok content =>
        by_cases hraw : strLower (strTrim content) = "none"
        · simp [hraw]
        · simp only [hraw, if_false]
          intro hx
          unfold parseGrade at hx
          obtain ⟨i, _, hget⟩ := List.mem_filterMap.mp hx
          exact List.getElem?_mem hget

/-- C10 (witness): grading the single retrieved chunk with response `"0"`
keeps exactly that chunk. -/
theorem c10_grade_subset_witness :
    (⟨⟨"A", "doc", 0, "a", false⟩, 0⟩ : SearchHit) ∈
      ({ initialState "q" with
          retrieved_chunks := [⟨⟨"A", "doc", 0, "a", false⟩, 0⟩] } : RAGState).retrieved_chunks :=
  c10_grade_subset 2 (fun _ => Except.ok "0")
    { initialState "q" with retrieved_chunks := [⟨⟨"A", "doc", 0, "a", false⟩, 0⟩] } 0
    ⟨⟨"A", "doc", 0, "a", false⟩, 0⟩ (by decide)

/-- C6 (counterexample): with one retrieved chunk and the (non-raising)
malformed grading response `"unsure"`, the code keeps nothing — not all
candidates as the claim states: the keep-all fallback is reserved for a
raising completion call, while a malformed response merely yields the
candidates at its digit tokens (here none). -/
theorem c6_counterexample :
    (node_grade 2 (fun _ => Except.ok "unsure")
        { initialState "q" with
            retrieved_chunks := [⟨⟨"A", "doc", 0, "a", false⟩, 0⟩] } 0).1.relevant_chunks
        = [] ∧
      ({ initialState "q" with
          retrieved_chunks := [⟨⟨"A", "doc", 0, "a", false⟩, 0⟩] } : RAGState).retrieved_chunks
        ≠ [] := by
  exact ⟨by decide, by decide⟩

/-- C6 (amended): the conservative keep-all fallback applies exactly when
the completion call raises during GRADE: then all retrieved chunks are
kept as relevant.  (A malformed non-raising response instead yields the
candidates named by its digit tokens, possibly none.) -/
theorem c6_grade_error_keeps_all (maxR : Nat) (comp : Nat → Except String String)
    (st : RAGState) (calls : Nat) (e : String)
    (hne : st.retrieved_chunks ≠ []) (herr : comp calls = Except.error e) :
    (node_grade maxR comp st calls).1.relevant_chunks = st.retrieved_chunks := by
  have h : st.retrieved_chunks.isEmpty = false := by
    cases hc : st.retrieved_chunks with
    | nil => exact absurd hc hne
    | cons a l => simp [hc]
  simp [node_grade, h, herr]

/-- C6 (witness): the amended theorem applied to one chunk and an oracle
that raises. -/
theorem c6_grade_error_keeps_all_witness :
    (node_grade 2 (fun _ => Except.error "boom")
        { initialState "q" with
            retrieved_chunks := [⟨⟨"A", "doc", 0, "a", false⟩, 0⟩] } 0).1.relevant_chunks
      = ({ initialState "q" with
            retrieved_chunks := [⟨⟨"A", "doc", 0, "a", false⟩, 0⟩] } : RAGState).retrieved_chunks :=
  c6_grade_error_keeps_all 2 (fun _ => Except.error "boom")
    { initialState "q" with retrieved_chunks := [⟨⟨"A", "doc", 0, "a", false⟩, 0⟩] } 0
    "boom" (by decide) rfl

/-- C9: if GENERATE runs with at least one candidate (relevant or, as
fallback, retrieved) and the completion call raises, `node_generate`
surfaces `RuntimeError("LLM generation failed: ...")` instead of an
answer; and a whole pipeline run that reaches GENERATE that way returns
that error to the caller. -/
theorem c9_generate_error_surfaced (comp : Nat → Except String String)
    (st : RAGState) (calls : Nat) (e : String)
    (hc : st.relevant_chunks ≠ [] ∨ st.retrieved_chunks ≠ [])
    (herr : comp calls = Except.error e) :
    node_generate comp st calls
        = (.error ("LLM generation failed: " ++ e), calls + 1) ∧
      ∀ hit rest q n,
        run_rag (fun _ => hit :: rest) (fun _ => Except.error e) 0 (n + 1) q
          = some (.error ("LLM generation failed: " ++ e), 2, 1) := by
  constructor
  · rcases hrel : st.relevant_chunks with _ | ⟨a, l⟩
    · rcases hret : st.retrieved_chunks with _ | ⟨b, m⟩
      · rcases hc with h | h
        · exact absurd hrel h
        · exact absurd hret h
      · simp [node_generate, hrel, hret, herr]
    · simp [node_generate, hrel, herr]
  · intro hit rest q n
    simp [run_rag, graphLoop, node_retrieve, node_grade, node_generate, initialState]

/-- C9 (witness): the theorem applied to a state with one relevant chunk
and an oracle that raises. -/
theorem c9_generate_error_surfaced_witness :
    (node_generate (fun _ => Except.error "down")
          { initialState "q" with
              relevant_chunks := [⟨⟨"A", "doc", 0, "a", false⟩, 0⟩] } 0
        = (.error ("LLM generation failed: " ++ "down"), 0 + 1)) ∧
      ∀ hit rest q n,
        run_rag (fun _ => hit :: rest) (fun _ => Except.error "down") 0 (n + 1) q
          = some (.error ("LLM generation failed: " ++ "down"), 2, 1) :=
  c9_generate_error_surfaced (fun _ => Except.error "down")
    { initialState "q" with relevant_chunks := [⟨⟨"A", "doc", 0, "a", false⟩, 0⟩] } 0
    "down" (Or.inl (by decide)) rfl

theorem node_retrieve_rewrite_count (rf : String → List SearchHit) (st : RAGState) :
    (node_retrieve rf st).rewrite_count = st.rewrite_count := rfl

theorem node_grade_rewrite_count (maxR : Nat) (comp : Nat → Except String String)
    (st : RAGState) (calls : Nat) :
    (node_grade maxR comp st calls).1.rewrite_count = st.rewrite_count := by
  unfold node_grade
  split <;> rfl

theorem node_grade_lt_of_needs_rewrite {maxR : Nat} {comp : Nat → Except String String}
    {st : RAGState} {calls : Nat}
    (h : (node_grade maxR comp st calls).1.needs_rewrite = true) :
    st.rewrite_count < maxR := by
  unfold node_grade at h
  split at h
  · simp at h
    exact h
  · simp at h
    exact h.2

theorem node_rewrite_rewrite_count (comp : Nat → Except String String)
    (st : RAGState) (calls : Nat) :
    (node_rewrite comp st calls).1.rewrite_count = st.rewrite_count + 1 := rfl

theorem node_rewrite_snd (comp : Nat → Except String String)
    (st : RAGState) (calls : Nat) :
    (node_rewrite comp st calls).2 = calls + 1 := rfl

/-- Any fuel of at least `maxR + 1 - rewrite_count` completes the loop, in
at most that many retrieval passes. -/
theorem graphLoop_total (rf : String → List SearchHit) (comp : Nat → Except String String)
    (maxR : Nat) : ∀ fuel st calls passes,
    maxR - st.rewrite_count + 1 ≤ fuel →
    ∃ r c p, graphLoop rf comp maxR fuel st calls passes = some (r, c, p) ∧
      p ≤ passes + (maxR - st.rewrite_count + 1) := by
  intro fuel
  induction fuel with
  | zero => intro st calls passes h; omega
  | succ n ih =>
      intro st calls passes h
      by_cases hnr : (node_grade maxR comp (node_retrieve rf st) calls).1.needs_rewrite = true
      · have hlt : st.rewrite_count < maxR := by
          have := node_grade_lt_of_needs_rewrite hnr
          rwa [node_retrieve_rewrite_count] at this
        have hrc : (node_rewrite comp (node_grade maxR comp (node_retrieve rf st) calls).1
            (node_grade maxR comp (node_retrieve rf st) calls).2).1.rewrite_count
            = st.rewrite_count + 1 := by
          rw [node_rewrite_rewrite_count, node_grade_rewrite_count, node_retrieve_rewrite_count]
        obtain ⟨r, c, p, heq, hp⟩ := ih
          (node_rewrite comp (node_grade maxR comp (node_retrieve rf st) calls).1
            (node_grade maxR comp (node_retrieve rf st) calls).2).1
          (node_rewrite comp (node_grade maxR comp (node_retrieve rf st) calls).1
            (node_grade maxR comp (node_retrieve rf st) calls).2).2
          (passes + 1) (by rw [hrc]; omega)
        refine ⟨r, c, p, ?_, ?_⟩
        · simp only [graphLoop, hnr, if_true]
          exact heq
        · rw [hrc] at hp
          omega
      · refine ⟨(node_generate comp (node_grade maxR comp (node_retrieve rf st) calls).1
            (node_grade maxR comp (node_retrieve rf st) calls).2).1,
          (node_generate comp (node_grade maxR comp (node_retrieve rf st) calls).1
            (node_grade maxR comp (node_retrieve rf st) calls).2).2, passes + 1, ?_, by omega⟩
        simp [graphLoop, hnr]

/-- Grading against an oracle that always answers `"none"` keeps nothing
and requests a rewrite exactly while budget remains. -/
theorem node_grade_noneOracle (maxR : Nat) (st : RAGState) (calls : Nat) :
    node_grade maxR (fun _ => Except.ok "none") st calls
      = ({ st with relevant_chunks := [],
                   needs_rewrite := decide (st.rewrite_count < maxR) },
         if st.retrieved_chunks.isEmpty then calls else calls + 1) := by
  unfold node_grade
  split
  next => rfl
  next => rfl

/-- Generation with the always-`"none"` oracle always succeeds and keeps
the rewrite count. -/
theorem node_generate_noneOracle (st : RAGState) (calls : Nat) :
    ∃ stf c, node_generate (fun _ => Except.ok "none") st calls = (.ok stf, c) ∧
      stf.rewrite_count = st.rewrite_count := by
  simp only [node_generate]
  split <;> (try split) <;> exact ⟨_, _, rfl, rfl⟩

/-- With grading always answering `"none"`, the loop performs exactly
`maxR - rewrite_count` rewrite cycles and one final generation pass. -/
theorem graphLoop_noneOracle (rf : String → List SearchHit) (maxR : Nat) :
    ∀ fuel st calls passes,
    st.rewrite_count ≤ maxR →
    maxR - st.rewrite_count + 1 ≤ fuel →
    ∃ stf c, graphLoop rf (fun _ => Except.ok "none") maxR fuel st calls passes
        = some (Except.ok stf, c, passes + (maxR - st.rewrite_count) + 1) ∧
      stf.rewrite_count = maxR := by
  intro fuel
  induction fuel with
  | zero => intro st calls passes hle h; omega
  | succ n ih =>
      intro st calls passes hle h
      by_cases hlt : st.rewrite_count < maxR
      · have hnr : (node_grade maxR (fun _ => Except.ok "none")
            (node_retrieve rf st) calls).1.needs_rewrite = true := by
          rw [node_grade_noneOracle]
          simpa using hlt
        obtain ⟨stf, c, heq, hcount⟩ := ih
          (node_rewrite (fun _ => Except.ok "none")
            (node_grade maxR (fun _ => Except.ok "none") (node_retrieve rf st) calls).1
            (node_grade maxR (fun _ => Except.ok "none") (node_retrieve rf st) calls).2).1
          (node_rewrite (fun _ => Except.ok "none")
            (node_grade maxR (fun _ => Except.ok "none") (node_retrieve rf st) calls).1
            (node_grade maxR (fun _ => Except.ok "none") (node_retrieve rf st) calls).2).2
          (passes + 1)
          (by rw [node_rewrite_rewrite_count, node_grade_rewrite_count,
                  node_retrieve_rewrite_count]; omega)
          (by rw [node_rewrite_rewrite_count, node_grade_rewrite_count,
                  node_retrieve_rewrite_count]; omega)
        refine ⟨stf, c, ?_, hcount⟩
        simp only [graphLoop, hnr, if_true]
        rw [heq, node_rewrite_rewrite_count, node_grade_rewrite_count,
            node_retrieve_rewrite_count]
        have hc1 : maxR - st.rewrite_count = maxR - (st.rewrite_count + 1) + 1 := by omega
        rw [hc1]
        have hc2 : passes + 1 + (maxR - (st.rewrite_count + 1)) + 1
            = passes + (maxR - (st.rewrite_count + 1) + 1) + 1 := by omega
        rw [hc2]
      · have hcount : st.rewrite_count = maxR := by omega
        have hnr : (node_grade maxR (fun _ => Except.ok "none")
            (node_retrieve rf st) calls).1.needs_rewrite = false := by
          rw [node_grade_noneOracle]
          simpa using hlt
        obtain ⟨stf, c, hgen, hgc⟩ := node_generate_noneOracle
          (node_grade maxR (fun _ => Except.ok "none") (node_retrieve rf st) calls).1
          (node_grade maxR (fun _ => Except.ok "none") (node_retrieve rf st) calls).2
        refine ⟨stf, c, ?_, ?_⟩
        · simp only [graphLoop, hnr, Bool.false_eq_true, if_false, hgen]
          rw [hcount]
          simp
        · rw [hgc, node_grade_rewrite_count, node_retrieve_rewrite_count, hcount]

/-- C4: for any retrieval behaviour, completion behaviour and budget, the
loop reaches GENERATE within `max_rewrite_attempts + 1` retrieval passes
(any fuel of at least `maxR + 1` completes it in at most `maxR + 1`
passes); and with `max_rewrite_attempts = 2` and grading always answering
`"none"`, the run ends successfully after exactly 3 retrieval passes with
exactly 2 rewrites. -/
theorem c4_retry_termination (n : Nat) :
    (∀ rf comp maxR q, ∃ r c p,
        graphLoop rf comp maxR (maxR + 1 + n) (initialState q) 0 0 = some (r, c, p) ∧
          p ≤ maxR + 1) ∧
      (∀ rf q, ∃ stf c,
        graphLoop rf (fun _ => Except.ok "none") 2 (3 + n) (initialState q) 0 0
            = some (Except.ok stf, c, 3) ∧
          stf.rewrite_count = 2) := by
  constructor
  · intro rf comp maxR q
    obtain ⟨r, c, p, heq, hp⟩ := graphLoop_total rf comp maxR (maxR + 1 + n)
      (initialState q) 0 0 (by simp [initialState])
    exact ⟨r, c, p, heq, by simpa [initialState] using hp⟩
  · intro rf q
    obtain ⟨stf, c, heq, hcount⟩ := graphLoop_noneOracle rf 2 (3 + n)
      (initialState q) 0 0 (by simp [initialState]) (by simp [initialState])
    exact ⟨stf, c, by simpa [initialState] using heq, hcount⟩

/-- `search` on a store whose matrix is empty returns nothing. -/
theorem search_empty_index (enc : String → Vec) {s : VectorStore}
    (hs : s.index = []) (q : String) (k : Nat) :
    VectorStore.search enc s q k = [] := by
  unfold VectorStore.search
  rw [hs]
  simp

/-- With every retrieval returning no candidates, the loop spends its full
rewrite budget (one completion call per rewrite, none for grading or
generation) and ends with the fixed not-found answer and no sources. -/
theorem graphLoop_emptyRetrieval (comp : Nat → Except String String) (maxR : Nat) :
    ∀ fuel st calls passes,
    maxR - st.rewrite_count + 1 ≤ fuel →
    ∃ stf, graphLoop (fun _ => []) comp maxR fuel st calls passes
        = some (Except.ok stf, calls + (maxR - st.rewrite_count),
                passes + (maxR - st.rewrite_count) + 1) ∧
      stf.answer = notFoundAnswer ∧ stf.sources = [] ∧
      stf.retrieved_chunks = [] ∧ stf.relevant_chunks = [] := by
  intro fuel
  induction fuel with
  | zero => intro st calls passes h; omega
  | succ n ih =>
      intro st calls passes h
      have hg : node_grade maxR comp (node_retrieve (fun _ => []) st) calls
          = (({ st with
                  retrieved_chunks := []
                  relevant_chunks := []
                  needs_rewrite := decide (st.rewrite_count < maxR) } : RAGState), calls) := by
        simp [node_grade, node_retrieve]
      by_cases hlt : st.rewrite_count < maxR
      · obtain ⟨stf, heq, ha, hsrc, hret, hrel⟩ := ih
          (node_rewrite comp
            (node_grade maxR comp (node_retrieve (fun _ => []) st) calls).1
            (node_grade maxR comp (node_retrieve (fun _ => []) st) calls).2).1
          (node_rewrite comp
            (node_grade maxR comp (node_retrieve (fun _ => []) st) calls).1
            (node_grade maxR comp (node_retrieve (fun _ => []) st) calls).2).2
          (passes + 1)
          (by rw [node_rewrite_rewrite_count, node_grade_rewrite_count,
                  node_retrieve_rewrite_count]; omega)
        refine ⟨stf, ?_, ha, hsrc, hret, hrel⟩
        have hnr : (node_grade maxR comp (node_retrieve (fun _ => []) st) calls).1.needs_rewrite
            = true := by
          rw [hg]
          simpa using hlt
        simp only [graphLoop, hnr, if_true]
        rw [heq, node_rewrite_rewrite_count, node_grade_rewrite_count,
            node_retrieve_rewrite_count, node_rewrite_snd]
        have hsnd : (node_grade maxR comp (node_retrieve (fun _ => []) st) calls).2
            = calls := by rw [hg]
        rw [hsnd]
        have e1 : maxR - st.rewrite_count = maxR - (st.rewrite_count + 1) + 1 := by omega
        rw [e1]
        have e2 : calls + 1 + (maxR - (st.rewrite_count + 1))
            = calls + (maxR - (st.rewrite_count + 1) + 1) := by omega
        rw [e2]
        have e3 : passes + 1 + (maxR - (st.rewrite_count + 1)) + 1
            = passes + (maxR - (st.rewrite_count + 1) + 1) + 1 := by omega
        rw [e3]
      · have hnr : (node_grade maxR comp (node_retrieve (fun _ => []) st) calls).1.needs_rewrite
            = false := by
          rw [hg]
          simpa using hlt
        have hsub : maxR - st.rewrite_count = 0 := by omega
        refine ⟨{ st with
                    retrieved_chunks := []
                    relevant_chunks := []
                    needs_rewrite := decide (st.rewrite_count < maxR)
                    answer := notFoundAnswer
                    sources := [] }, ?_, rfl, rfl, rfl, rfl⟩
        simp only [graphLoop, hnr, Bool.false_eq_true, if_false, hg]
        simp only [node_generate, hsub]
        simp [hlt]

/-- C5 (counterexample): against an index holding zero vectors, with the
default `max_rewrite_attempts = 2`, `run_rag` does return the fixed
not-found text and empty sources — but the completion function is invoked
2 times (once per query rewrite), not zero times as the claim states. -/
theorem c5_counterexample :
    run_rag (fun q' => VectorStore.search (fun _ => []) emptyStore q' 5)
        (fun _ => Except.ok "x") 2 3 "anything"
      = some (.ok ⟨notFoundAnswer, [], "x", 0⟩, 2, 3) ∧ (2 : Nat) ≠ 0 := by
  exact ⟨rfl, by decide⟩

/-- C5 (amended): for every index with an empty matrix, every completion
behaviour and every budget, `run_rag` returns the fixed not-found answer
with empty sources and zero candidates — and the completion function is
invoked exactly `max_rewrite_attempts` times, all by REWRITE (never by
grading or generation), over `max_rewrite_attempts + 1` retrieval passes. -/
theorem c5_empty_index_not_found (enc : String → Vec) (s : VectorStore)
    (hs : s.index = []) (comp : Nat → Except String String) (maxR n : Nat)
    (q : String) (k : Nat) :
    ∃ r, run_rag (fun q' => VectorStore.search enc s q' k) comp maxR (maxR + 1 + n) q
        = some (Except.ok r, maxR, maxR + 1) ∧
      r.answer = notFoundAnswer ∧ r.sources = [] ∧ r.chunk_count = 0 := by
  have hrf : (fun q' => VectorStore.search enc s q' k) = fun _ => ([] : List SearchHit) :=
    funext fun q' => search_empty_index enc hs q' k
  obtain ⟨stf, heq, ha, hsrc, hret, hrel⟩ := graphLoop_emptyRetrieval comp maxR
    (maxR + 1 + n) (initialState q) 0 0 (by simp [initialState])
  refine ⟨{ answer := stf.answer, sources := stf.sources,
            rewritten_query := stf.rewritten_query, chunk_count := 0 }, ?_, ha, hsrc, rfl⟩
  rw [run_rag, hrf, heq]
  simp [initialState, hret, hrel]

/-- C5 (amended, witness): the amended theorem at the empty store with a
concrete oracle. -/
theorem c5_empty_index_not_found_witness :
    ∃ r, run_rag (fun q' => VectorStore.search (fun _ => ([0] : Vec)) emptyStore q' 5)
        (fun _ => Except.error "down") 2 (2 + 1 + 0) "hello"
        = some (Except.ok r, 2, 2 + 1) ∧
      r.answer = notFoundAnswer ∧ r.sources = [] ∧ r.chunk_count = 0 :=
  c5_empty_index_not_found (fun _ => ([0] : Vec)) emptyStore rfl
    (fun _ => Except.error "down") 2 0 "hello" 5

theorem mem_rankedInsert {x a : Int × Nat} {l : List (Int × Nat)} :
    x ∈ rankedInsert a l ↔ x = a ∨ x ∈ l := by
  induction l with
  | nil => simp [rankedInsert]
  | cons y ys ih =>
      unfold rankedInsert
      split
      · simp
      · simp only [List.mem_cons, ih]
        tauto

theorem mem_sortRanked {x : Int × Nat} {l : List (Int × Nat)} :
    x ∈ sortRanked l ↔ x ∈ l := by
  induction l with
  | nil => simp [sortRanked]
  | cons y ys ih => simp [sortRanked, mem_rankedInsert, ih]

/-- For `k ≥ 1` the collection loop of `search` is filtering followed by
truncation. -/
theorem walkHits_eq_filterMap_take (meta : List (Option ChunkMeta)) :
    ∀ (hits : List (Int × Nat)) (k : Nat), 1 ≤ k →
    walkHits meta k hits = (hits.filterMap (resultFilter meta)).take k := by
  intro hits
  induction hits with
  | nil => intro k hk; simp [walkHits]
  | cons di rest ih =>
      intro k hk
      unfold walkHits
      cases hmeta : meta[di.2]? with
      | none =>
          simp only [List.filterMap_cons, resultFilter, hmeta]
          exact ih k hk
      | some o =>
          cases o with
          | none =>
              simp only [List.filterMap_cons, resultFilter, hmeta]
              exact ih k hk
          | some m =>
              by_cases hdel : m.deleted
              · simp only [hdel, if_true, List.filterMap_cons, resultFilter, hmeta]
                exact ih k hk
              · simp only [hdel, Bool.false_eq_true, if_false, List.filterMap_cons,
                  resultFilter, hmeta]
                by_cases hk1 : k ≤ 1
                · have : k = 1 := by omega
                  subst this
                  simp
                · obtain ⟨n, rfl⟩ : ∃ n, k = n + 1 := ⟨k - 1, by omega⟩
                  rw [if_neg hk1, List.take_succ_cons]
                  simp only [Nat.add_sub_cancel]
                  rw [ih n (by omega)]

theorem aliveVecCount_eq_zero {s : VectorStore} (h : aliveVecCount s = 0) :
    ∀ p, p < s.index.length → aliveAtB s p = false := by
  intro p hp
  unfold aliveVecCount at h
  rw [List.length_eq_zero] at h
  have := List.filter_eq_nil_iff.mp h p (List.mem_range.mpr hp)
  simpa using this

/-- C8: `VectorStore.search` computes exactly the spec's description — in
particular it is empty when the index holds zero non-deleted vectors, it
over-fetches `min(k*4, ntotal)` nearest neighbours including soft-deleted
ones, filters them out in ascending-distance order, and truncates to at
most `k` results without ever failing. -/
theorem c8_search_refines_spec (enc : String → Vec) (s : VectorStore)
    (q : String) (k : Nat) :
    VectorStore.search enc s q k = searchSpecification enc s q k ∧
      (VectorStore.search enc s q k).length ≤ k := by
  have main : VectorStore.search enc s q k = searchSpecification enc s q k := by
    by_cases hk : k = 0
    · subst hk
      have hL : VectorStore.search enc s q 0 = [] := by
        simp only [VectorStore.search]
        split
        · rfl
        · simp [faissSearch, walkHits]
      have hR : searchSpecification enc s q 0 = [] := by
        simp only [searchSpecification]
        split
        · rfl
        · simp
      rw [hL, hR]
    · have hk1 : 1 ≤ k := Nat.one_le_iff_ne_zero.mpr hk
      by_cases hlen : s.index.length = 0
      · simp only [VectorStore.search, searchSpecification]
        rw [if_pos hlen]
        have halive : aliveVecCount s = 0 := by
          simp [aliveVecCount, hlen]
        rw [if_pos halive]
      · simp only [VectorStore.search, searchSpecification]
        rw [if_neg hlen]
        by_cases halive : aliveVecCount s = 0
        · rw [if_pos halive]
          rw [faissSearch, walkHits_eq_filterMap_take s.meta _ k hk1]
          have hnil : ((sortRanked (s.index.enum.map
              (fun iv => (sqDist (enc q) iv.2, iv.1)))).take
                (min (k * 4) s.index.length)).filterMap (resultFilter s.meta) = [] := by
            rw [List.filterMap_eq_nil_iff]
            intro di hdi
            have hmem := mem_sortRanked.mp (List.mem_of_mem_take hdi)
            obtain ⟨iv, hiv, heq⟩ := List.mem_map.mp hmem
            have hlt : iv.1 < s.index.length := by
              have h1 := List.mem_enum_iff_getElem?.mp hiv
              have h2 := List.getElem?_eq_some.mp h1
              exact h2.1
            have hdead := aliveVecCount_eq_zero halive iv.1 hlt
            rw [← heq]
            unfold resultFilter aliveAtB at *
            revert hdead
            cases hm : s.meta[iv.1]? with
            | none => intro _; rfl
            | some o =>
                cases o with
                | none => intro _; rfl
                | some m =>
                    intro hdead
                    simp only at hdead
                    simp [Bool.not_eq_true'] at hdead
                    simp [hdead]
          rw [hnil]
          simp
        · rw [if_neg halive]
          rw [faissSearch, walkHits_eq_filterMap_take s.meta _ k hk1]
  refine ⟨main, ?_⟩
  rw [main]
  unfold searchSpecification
  split
  · simp
  · exact List.length_take_le _ _

theorem set_append_len {α : Type} (l₁ : List α) (x y : α) (l₂ : List α) :
    (l₁ ++ y :: l₂).set l₁.length x = l₁ ++ x :: l₂ := by
  induction l₁ with
  | nil => rfl
  | cons a l ih => simp [List.set, ih]

theorem writeMeta_append (did dn : String) :
    ∀ (cs : List String) (i : Nat) (pre : List (Option ChunkMeta)),
    writeMeta did dn cs i pre.length (pre ++ List.replicate cs.length none)
      = pre ++ newMetas did dn i cs := by
  intro cs
  induction cs with
  | nil => intro i pre; simp [writeMeta, newMetas]
  | cons c cs ih =>
      intro i pre
      rw [writeMeta]
      have h1 : List.replicate (c :: cs).length (none : Option ChunkMeta)
          = none :: List.replicate cs.length none := rfl
      rw [h1, set_append_len]
      have h2 : pre ++ some ⟨did, dn, i, c, false⟩ :: List.replicate cs.length none
          = (pre ++ [some ⟨did, dn, i, c, false⟩]) ++ List.replicate cs.length none := by
        simp
      have h3 : pre.length + 1 = (pre ++ [some (⟨did, dn, i, c, false⟩ : ChunkMeta)]).length := by
        simp
      rw [h2, h3, ih (i + 1) (pre ++ [some (⟨did, dn, i, c, false⟩ : ChunkMeta)])]
      simp [newMetas]

theorem add_chunks_fst_meta (enc : String → Vec) (s : VectorStore)
    (did dn : String) (chunks : List String) (hlen : s.meta.length = s.index.length) :
    (add_chunks enc s did dn chunks).1.meta = s.meta ++ newMetas did dn 0 chunks := by
  cases chunks with
  | nil => simp [add_chunks, newMetas]
  | cons c cs =>
      have hpad : padMeta s.meta (s.index.length + (c :: cs).length)
          = s.meta ++ List.replicate (c :: cs).length none := by
        unfold padMeta
        rw [hlen, Nat.add_sub_cancel_left]
      simp only [add_chunks, List.isEmpty_cons, Bool.false_eq_true, if_false]
      rw [hpad, ← hlen, writeMeta_append]

theorem newMetas_length (did dn : String) :
    ∀ (cs : List String) (i : Nat), (newMetas did dn i cs).length = cs.length := by
  intro cs
  induction cs with
  | nil => intro i; rfl
  | cons c cs ih => intro i; simp [newMetas, ih]

theorem newMetas_getElem (did dn : String) :
    ∀ (cs : List String) (i j : Nat), j < cs.length →
    ∃ m, (newMetas did dn i cs)[j]? = some (some m) ∧ m.deleted = false ∧
      m.doc_id = did := by
  intro cs
  induction cs with
  | nil => intro i j h; simp at h
  | cons c cs ih =>
      intro i j h
      cases j with
      | zero => exact ⟨⟨did, dn, i, c, false⟩, by simp [newMetas], rfl, rfl⟩
      | succ j' =>
          have := ih (i + 1) j' (by simpa using h)
          simpa [newMetas] using this

theorem mem_ownedPositions {s : VectorStore} {p : Nat} :
    p ∈ ownedPositions s ↔ ∃ did ps, (did, ps) ∈ s.doc_map ∧ p ∈ ps := by
  unfold ownedPositions
  rw [List.mem_flatten]
  constructor
  · rintro ⟨l, hl, hpl⟩
    obtain ⟨e, he, rfl⟩ := List.mem_map.mp hl
    exact ⟨e.1, e.2, he, hpl⟩
  · rintro ⟨did, ps, he, hp⟩
    exact ⟨ps, List.mem_map.mpr ⟨(did, ps), he, rfl⟩, hp⟩

theorem owned_lt_of_inv {s : VectorStore} (inv : StoreInv s) :
    ∀ p ∈ ownedPositions s, p < s.index.length := by
  intro p hp
  obtain ⟨did', ps', he, hpe⟩ := mem_ownedPositions.mp hp
  obtain ⟨m, hm, -, -⟩ := inv.owner_match did' ps' he p hpe
  have := (List.getElem?_eq_some.mp hm).1
  rwa [inv.len_eq] at this

theorem storeInv_empty : StoreInv emptyStore := by
  refine ⟨rfl, List.nodup_nil, List.nodup_nil, ?_, ?_⟩
  · intro did ps h
    simp [emptyStore] at h
  · intro p hp
    obtain ⟨m, hm, -⟩ := hp
    simp [emptyStore] at hm

theorem storeInv_insert (enc : String → Vec) {s : VectorStore} (inv : StoreInv s)
    (did dn : String) (chunks : List String)
    (hfresh : chunks ≠ [] → dictGet s.doc_map did = none) :
    StoreInv (add_chunks enc s did dn chunks).1 := by
  cases chunks with
  | nil => simpa [add_chunks] using inv
  | cons c cs =>
      have hget : dictGet s.doc_map did = none := hfresh (by simp)
      have hmeta := add_chunks_fst_meta enc s did dn (c :: cs) inv.len_eq
      have hmap : (add_chunks enc s did dn (c :: cs)).1.doc_map
          = s.doc_map ++ [(did, List.range' s.index.length (c :: cs).length)] := by
        simp only [add_chunks, List.isEmpty_cons, Bool.false_eq_true, if_false]
        exact dictSet_of_get_none hget _
      have hidx : (add_chunks enc s did dn (c :: cs)).1.index
          = s.index ++ (c :: cs).map enc := by
        simp [add_chunks]
      have howned : ownedPositions (add_chunks enc s did dn (c :: cs)).1
          = ownedPositions s ++ List.range' s.index.length (c :: cs).length := by
        unfold ownedPositions
        rw [hmap]
        simp
      refine ⟨?_, ?_, ?_, ?_, ?_⟩
      · rw [hmeta, hidx]
        simp [newMetas_length, inv.len_eq]
      · rw [hmap]
        rw [List.map_append]
        refine List.Nodup.append inv.keys_nodup (by simp) ?_
        intro a ha hb
        simp at hb
        subst hb
        exact (dictGet_eq_none_iff s.doc_map _).mp hget ha
      · rw [howned]
        refine List.Nodup.append inv.owned_nodup (List.nodup_range' _ _) ?_
        intro p hp hr
        have h1 := owned_lt_of_inv inv p hp
        have h2 := (List.mem_range'_1.mp hr).1
        omega
      · intro did' ps' hmem p hp
        rw [hmap] at hmem
        rcases List.mem_append.mp hmem with hold | hnew
        · obtain ⟨m, hm, hdel, hdoc⟩ := inv.owner_match did' ps' hold p hp
          refine ⟨m, ?_, hdel, hdoc⟩
          rw [hmeta, List.getElem?_append_left (List.getElem?_eq_some.mp hm).1]
          exact hm
        · simp at hnew
          obtain ⟨hdid, hps⟩ := hnew
          subst hdid
          subst hps
          obtain ⟨hle, hlt⟩ := List.mem_range'_1.mp hp
          have hmle : s.meta.length ≤ p := by rw [inv.len_eq]; omega
          obtain ⟨m, hm, hdel, hdoc⟩ := newMetas_getElem _ dn (c :: cs) 0
            (p - s.meta.length)
            (by rw [inv.len_eq]; simp only [List.length_cons] at hlt ⊢; omega)
          refine ⟨m, ?_, hdel, hdoc⟩
          rw [hmeta, List.getElem?_append_right hmle]
          exact hm
      · intro p hp
        obtain ⟨m, hm, hdel⟩ := hp
        rw [hmeta] at hm
        rw [howned]
        by_cases hlt : p < s.meta.length
        · rw [List.getElem?_append_left hlt] at hm
          exact List.mem_append_left _ (inv.alive_owned p ⟨m, hm, hdel⟩)
        · push_neg at hlt
          rw [List.getElem?_append_right hlt] at hm
          have hj := (List.getElem?_eq_some.mp hm).1
          rw [newMetas_length] at hj
          refine List.mem_append_right _ ?_
          rw [List.mem_range'_1]
          constructor
          · rw [← inv.len_eq]; omega
          · rw [← inv.len_eq]; omega

theorem dict_split_of_get_some {α : Type} {d : List (String × α)} {k : String} {v : α}
    (h : dictGet d k = some v) :
    ∃ pre post, d = pre ++ (k, v) :: post ∧ k ∉ pre.map Prod.fst := by
  induction d with
  | nil => simp [dictGet] at h
  | cons e rest ih =>
      obtain ⟨k', v'⟩ := e
      by_cases he : k' = k
      · rw [dictGet, if_pos he] at h
        subst he
        cases h
        exact ⟨[], rest, rfl, by simp⟩
      · rw [dictGet, if_neg he] at h
        obtain ⟨pre, post, hd, hk⟩ := ih h
        refine ⟨(k', v') :: pre, post, by simp [hd], ?_⟩
        simp only [List.map_cons, List.mem_cons]
        rintro (h1 | h1)
        · exact he h1.symm
        · exact hk h1

theorem dictRemove_eq_of_notMem {α : Type} {d : List (String × α)} {k : String}
    (h : k ∉ d.map Prod.fst) : dictRemove d k = d := by
  induction d with
  | nil => rfl
  | cons e rest ih =>
      simp only [List.map_cons, List.mem_cons] at h
      push_neg at h
      obtain ⟨k', v'⟩ := e
      rw [dictRemove, if_neg (fun hk => h.1 hk.symm), ih h.2]

theorem dictRemove_append {α : Type} (l₁ l₂ : List (String × α)) (k : String) :
    dictRemove (l₁ ++ l₂) k = dictRemove l₁ k ++ dictRemove l₂ k := by
  induction l₁ with
  | nil => rfl
  | cons e rest ih =>
      obtain ⟨k', v'⟩ := e
      by_cases he : k' = k
      · simp only [List.cons_append, dictRemove, if_pos he, List.append_eq, ih]
      · simp only [List.cons_append, dictRemove, if_neg he, List.append_eq, ih]

theorem markOnce_idem (o : Option (Option ChunkMeta)) :
    markOnce (markOnce o) = markOnce o := by
  match o with
  | some (some r) => rfl
  | some none => rfl
  | none => rfl

theorem markDeleted_fst_getElem (acc : List (Option ChunkMeta) × Nat) (q x : Nat) :
    (markDeleted acc q).1[x]? = if x = q then markOnce acc.1[x]? else acc.1[x]? := by
  unfold markDeleted
  by_cases hx : x = q
  · subst hx
    cases hm : acc.1[x]? with
    | none => simp [markOnce, hm]
    | some o =>
        cases o with
        | none => simp [markOnce, hm]
        | some r =>
            simp only [hm, markOnce, if_pos rfl]
            rw [List.getElem?_set_self']
            rw [hm]
            rfl
  · cases hm : acc.1[q]? with
    | none => simp [hx]
    | some o =>
        cases o with
        | none => simp [hx]
        | some r => simp [List.getElem?_set_ne (fun h => hx h.symm), hx]

theorem markDeleted_fst_length (acc : List (Option ChunkMeta) × Nat) (q : Nat) :
    (markDeleted acc q).1.length = acc.1.length := by
  unfold markDeleted
  cases acc.1[q]? with
  | none => rfl
  | some o =>
      cases o with
      | none => rfl
      | some r => simp

theorem foldl_markDeleted_length (l : List Nat) :
    ∀ (acc : List (Option ChunkMeta) × Nat),
    (l.foldl markDeleted acc).1.length = acc.1.length := by
  induction l with
  | nil => intro acc; rfl
  | cons q rest ih =>
      intro acc
      rw [List.foldl_cons, ih (markDeleted acc q), markDeleted_fst_length]

theorem foldl_markDeleted_getElem_notMem (l : List Nat) :
    ∀ (acc : List (Option ChunkMeta) × Nat) (p : Nat), p ∉ l →
    (l.foldl markDeleted acc).1[p]? = acc.1[p]? := by
  induction l with
  | nil => intro acc p _; rfl
  | cons q rest ih =>
      intro acc p hp
      simp only [List.mem_cons] at hp
      push_neg at hp
      rw [List.foldl_cons, ih (markDeleted acc q) p hp.2,
          markDeleted_fst_getElem, if_neg hp.1]

theorem foldl_markDeleted_getElem_mem (l : List Nat) :
    ∀ (acc : List (Option ChunkMeta) × Nat) (p : Nat), p ∈ l →
    (l.foldl markDeleted acc).1[p]? = markOnce acc.1[p]? := by
  induction l with
  | nil => intro acc p hp; simp at hp
  | cons q rest ih =>
      intro acc p hp
      rw [List.foldl_cons]
      by_cases hpr : p ∈ rest
      · rw [ih (markDeleted acc q) p hpr, markDeleted_fst_getElem]
        by_cases hpq : p = q
        · rw [if_pos hpq, markOnce_idem]
        · rw [if_neg hpq]
      · have hpq : p = q := by
          rcases List.mem_cons.mp hp with h | h
          · exact h
          · exact absurd h hpr
        rw [foldl_markDeleted_getElem_notMem rest (markDeleted acc q) p hpr,
            markDeleted_fst_getElem, if_pos hpq]

theorem storeInv_delete {s : VectorStore} (inv : StoreInv s) (did : String) :
    StoreInv (delete_doc s did) := by
  cases hget : dictGet s.doc_map did with
  | none =>
      have hs : delete_doc s did = s := by
        unfold delete_doc
        rw [hget]
        simp [dictRemove_eq_of_notMem ((dictGet_eq_none_iff s.doc_map did).mp hget)]
      rw [hs]
      exact inv
  | some P =>
      obtain ⟨pre, post, hd, hkpre⟩ := dict_split_of_get_some hget
      have hknodup := inv.keys_nodup
      rw [hd] at hknodup
      simp only [List.map_append, List.map_cons] at hknodup
      have hkpost : did ∉ post.map Prod.fst := by
        have := hknodup.of_append_right
        intro hmem
        exact (List.nodup_cons.mp this).1 hmem
      have hmeta' : (delete_doc s did).meta
          = (P.foldl markDeleted (s.meta, s.del_count)).1 := by
        unfold delete_doc
        rw [hget]
        rfl
      have hmap' : (delete_doc s did).doc_map = pre ++ post := by
        unfold delete_doc
        simp only
        rw [hd, dictRemove_append]
        rw [dictRemove_eq_of_notMem hkpre]
        rw [dictRemove, if_pos rfl, dictRemove_eq_of_notMem hkpost]
      have hidx' : (delete_doc s did).index = s.index := rfl
      have howned : ownedPositions s = ownedOf pre ++ (P ++ ownedOf post) := by
        unfold ownedPositions ownedOf
        rw [hd]
        simp
      have howned' : ownedPositions (delete_doc s did) = ownedOf pre ++ ownedOf post := by
        unfold ownedPositions ownedOf
        rw [hmap']
        simp
      have hOnodup := inv.owned_nodup
      rw [howned] at hOnodup
      have hdisj1 : ∀ p ∈ ownedOf pre, p ∉ P := by
        intro p hp hP
        exact List.disjoint_of_nodup_append hOnodup hp (List.mem_append_left _ hP)
      have hdisj2 : ∀ p ∈ ownedOf post, p ∉ P := by
        intro p hp hP
        exact List.disjoint_of_nodup_append hOnodup.of_append_right hP hp
      have hmem_did : (did, P) ∈ s.doc_map := by
        rw [hd]
        exact List.mem_append_right _ (List.mem_cons_self _ _)
      have hnotP_meta : ∀ p, p ∉ P →
          (delete_doc s did).meta[p]? = s.meta[p]? := by
        intro p hp
        rw [hmeta']
        exact foldl_markDeleted_getElem_notMem P (s.meta, s.del_count) p hp
      refine ⟨?_, ?_, ?_, ?_, ?_⟩
      · rw [hmeta', hidx']
        rw [foldl_markDeleted_length]
        exact inv.len_eq
      · rw [hmap', List.map_append]
        have hsub : List.Sublist (pre.map Prod.fst ++ post.map Prod.fst)
            (pre.map Prod.fst ++ did :: post.map Prod.fst) :=
          (List.sublist_cons_self _ _).append_left _
        exact hknodup.sublist hsub
      · rw [howned']
        have hsub : List.Sublist (ownedOf pre ++ ownedOf post)
            (ownedOf pre ++ (P ++ ownedOf post)) :=
          (List.sublist_append_right _ _).append_left _
        exact hOnodup.sublist hsub
      · intro did' ps' hmem p hp
        rw [hmap'] at hmem
        have hmem_s : (did', ps') ∈ s.doc_map := by
          rw [hd]
          rcases List.mem_append.mp hmem with h | h
          · exact List.mem_append_left _ h
          · exact List.mem_append_right _ (List.mem_cons_of_mem _ h)
        obtain ⟨m, hm, hdel, hdoc⟩ := inv.owner_match did' ps' hmem_s p hp
        have hpP : p ∉ P := by
          rcases List.mem_append.mp hmem with h | h
          · exact hdisj1 p (List.mem_flatten_of_mem (List.mem_map.mpr ⟨(did', ps'), h, rfl⟩) hp)
          · exact hdisj2 p (List.mem_flatten_of_mem (List.mem_map.mpr ⟨(did', ps'), h, rfl⟩) hp)
        exact ⟨m, by rw [hnotP_meta p hpP]; exact hm, hdel, hdoc⟩
      · intro p hp
        obtain ⟨m, hm, hdel⟩ := hp
        by_cases hpP : p ∈ P
        · exfalso
          obtain ⟨r, hr, hrdel, -⟩ := inv.owner_match did P hmem_did p hpP
          rw [hmeta', foldl_markDeleted_getElem_mem P (s.meta, s.del_count) p hpP] at hm
          simp only at hm
          rw [hr] at hm
          unfold markOnce at hm
          cases hm
          simp at hdel
        · rw [hnotP_meta p hpP] at hm
          have howned_s := inv.alive_owned p ⟨m, hm, hdel⟩
          rw [howned] at howned_s
          rw [howned']
          rcases List.mem_append.mp howned_s with h | h
          · exact List.mem_append_left _ h
          · rcases List.mem_append.mp h with h2 | h2
            · exact absurd h2 hpP
            · exact List.mem_append_right _ h2

theorem mem_filterMap_keepAlive {meta : List (Option ChunkMeta)} {m : ChunkMeta}
    (h : m ∈ meta.filterMap keepAlive) : m.deleted = false := by
  obtain ⟨o, -, ho⟩ := List.mem_filterMap.mp h
  match o with
  | none => simp [keepAlive] at ho
  | some m' =>
      by_cases hd : m'.deleted
      · simp [keepAlive, hd] at ho
      · simp [keepAlive, hd] at ho
        rw [← ho]
        simpa using hd

theorem dictAppendAt_keys (d : List (String × List Nat)) (k : String) (p : Nat) :
    (dictAppendAt d k p).map Prod.fst
      = if k ∈ d.map Prod.fst then d.map Prod.fst else d.map Prod.fst ++ [k] := by
  induction d with
  | nil => simp [dictAppendAt]
  | cons e rest ih =>
      obtain ⟨k', v⟩ := e
      by_cases he : k' = k
      · rw [dictAppendAt, if_pos he]
        simp [he]
      · rw [dictAppendAt, if_neg he]
        simp only [List.map_cons, ih]
        by_cases hk : k ∈ rest.map Prod.fst
        · rw [if_pos hk, if_pos (by simp [hk])]
        · rw [if_neg hk, if_neg ?_]
          · simp
          · simp only [List.mem_cons]
            rintro (h | h)
            · exact he h.symm
            · exact hk h

theorem foldl_dictAppendAt_keys_nodup :
    ∀ (l : List (Nat × ChunkMeta)) (d : List (String × List Nat)),
    (d.map Prod.fst).Nodup →
    ((l.foldl (fun d pm => dictAppendAt d pm.2.doc_id pm.1) d).map Prod.fst).Nodup := by
  intro l
  induction l with
  | nil => intro d hd; exact hd
  | cons pm rest ih =>
      intro d hd
      rw [List.foldl_cons]
      refine ih _ ?_
      rw [dictAppendAt_keys]
      by_cases hk : pm.2.doc_id ∈ d.map Prod.fst
      · rw [if_pos hk]; exact hd
      · rw [if_neg hk]
        refine List.Nodup.append hd (by simp) ?_
        intro a ha hb
        simp at hb
        subst hb
        exact hk ha

theorem dictAppendAt_owned_perm (d : List (String × List Nat)) (k : String) (p : Nat) :
    (ownedOf (dictAppendAt d k p)).Perm (p :: ownedOf d) := by
  induction d with
  | nil => simp [dictAppendAt, ownedOf]
  | cons e rest ih =>
      obtain ⟨k', v⟩ := e
      by_cases he : k' = k
      · rw [dictAppendAt, if_pos he]
        unfold ownedOf
        simp only [List.map_cons, List.flatten_cons, List.append_assoc,
          List.singleton_append]
        exact List.perm_middle
      · rw [dictAppendAt, if_neg he]
        unfold ownedOf at ih ⊢
        simp only [List.map_cons, List.flatten_cons]
        exact (List.Perm.append_left v ih).trans List.perm_middle

theorem foldl_dictAppendAt_owned_perm :
    ∀ (l : List (Nat × ChunkMeta)) (d : List (String × List Nat)),
    (ownedOf (l.foldl (fun d pm => dictAppendAt d pm.2.doc_id pm.1) d)).Perm
      (l.map Prod.fst ++ ownedOf d) := by
  intro l
  induction l with
  | nil => intro d; simp
  | cons pm rest ih =>
      intro d
      rw [List.foldl_cons]
      have h1 := (ih (dictAppendAt d pm.2.doc_id pm.1)).trans
        ((List.Perm.append_left (rest.map Prod.fst)
          (dictAppendAt_owned_perm d pm.2.doc_id pm.1)).trans List.perm_middle)
      simpa using h1

theorem mem_dictAppendAt {d : List (String × List Nat)} {k : String} {p : Nat}
    {e : String × List Nat} (h : e ∈ dictAppendAt d k p) :
    e ∈ d ∨ (∃ v, (k, v) ∈ d ∧ e = (k, v ++ [p])) ∨ e = (k, [p]) := by
  induction d with
  | nil =>
      simp [dictAppendAt] at h
      exact Or.inr (Or.inr h)
  | cons e' rest ih =>
      obtain ⟨k', v'⟩ := e'
      by_cases he : k' = k
      · rw [dictAppendAt, if_pos he] at h
        rcases List.mem_cons.mp h with h1 | h1
        · subst he
          exact Or.inr (Or.inl ⟨v', List.mem_cons_self _ _, h1⟩)
        · exact Or.inl (List.mem_cons_of_mem _ h1)
      · rw [dictAppendAt, if_neg he] at h
        rcases List.mem_cons.mp h with h1 | h1
        · exact Or.inl (by rw [h1]; exact List.mem_cons_self _ _)
        · rcases ih h1 with h2 | ⟨v, hv, he2⟩ | h2
          · exact Or.inl (List.mem_cons_of_mem _ h2)
          · exact Or.inr (Or.inl ⟨v, List.mem_cons_of_mem _ hv, he2⟩)
          · exact Or.inr (Or.inr h2)

theorem foldl_dictAppendAt_entries (R : String → Nat → Prop) :
    ∀ (l : List (Nat × ChunkMeta)) (d : List (String × List Nat)),
    (∀ e ∈ d, ∀ q ∈ e.2, R e.1 q) →
    (∀ pm ∈ l, R pm.2.doc_id pm.1) →
    ∀ e ∈ l.foldl (fun d pm => dictAppendAt d pm.2.doc_id pm.1) d, ∀ q ∈ e.2, R e.1 q := by
  intro l
  induction l with
  | nil => intro d hd _ e he q hq; exact hd e he q hq
  | cons pm rest ih =>
      intro d hd hl e he q hq
      rw [List.foldl_cons] at he
      refine ih _ ?_ (fun pm' h => hl pm' (List.mem_cons_of_mem _ h)) e he q hq
      intro e' he' q' hq'
      rcases mem_dictAppendAt he' with h1 | ⟨v, hv, he2⟩ | h1
      · exact hd e' h1 q' hq'
      · rw [he2] at hq' ⊢
        simp only
        rcases List.mem_append.mp hq' with h2 | h2
        · exact hd (pm.2.doc_id, v) hv q' h2
        · simp at h2
          subst h2
          exact hl pm (List.mem_cons_self _ _)
      · rw [h1] at hq' ⊢
        simp only
        simp at hq'
        subst hq'
        exact hl pm (List.mem_cons_self _ _)

theorem storeInv_rebuild (enc : String → Vec) {s : VectorStore} (_ : StoreInv s) :
    StoreInv (rebuild_index enc s).1 := by
  by_cases hal : (s.meta.filterMap keepAlive).isEmpty
  · have : (rebuild_index enc s).1 = emptyStore := by
      unfold rebuild_index
      rw [if_pos hal]
    rw [this]
    exact storeInv_empty
  · have hs' : (rebuild_index enc s).1
        = { index := (s.meta.filterMap keepAlive).map (fun m => enc m.text)
            meta := (s.meta.filterMap keepAlive).map some
            doc_map := rebuildDocMap (s.meta.filterMap keepAlive)
            del_count := 0 } := by
      unfold rebuild_index
      rw [if_neg hal]
    rw [hs']
    set A := s.meta.filterMap keepAlive with hA
    have hperm : (ownedOf (rebuildDocMap A)).Perm (List.range A.length) := by
      have h1 := foldl_dictAppendAt_owned_perm A.enum []
      unfold rebuildDocMap
      simp only [ownedOf] at h1 ⊢
      simpa using h1
    refine ⟨by simp, ?_, ?_, ?_, ?_⟩
    · exact foldl_dictAppendAt_keys_nodup A.enum [] (by simp)
    · show (ownedPositions _).Nodup
      unfold ownedPositions
      simp only
      exact hperm.nodup_iff.mpr (List.nodup_range _)
    · intro did ps hmem p hp
      have hR := foldl_dictAppendAt_entries
        (fun did p => ∃ m, A[p]? = some m ∧ m.doc_id = did) A.enum [] (by simp)
        (fun pm hpm => ⟨pm.2, List.mem_enum_iff_getElem?.mp hpm, rfl⟩)
        (did, ps) hmem p hp
      obtain ⟨m, hm, hdoc⟩ := hR
      refine ⟨m, ?_, ?_, hdoc⟩
      · show (A.map some)[p]? = some (some m)
        rw [List.getElem?_map, hm]
        rfl
      · exact mem_filterMap_keepAlive (List.getElem?_mem hm)
    · intro p hp
      obtain ⟨m, hm, -⟩ := hp
      show p ∈ ownedPositions _
      unfold ownedPositions
      refine hperm.mem_iff.mpr ?_
      rw [List.mem_range]
      have : p < (A.map some).length := (List.getElem?_eq_some.mp hm).1
      simpa using this

/-- Every state reachable under the delete-before-reinsert discipline
satisfies the consistency invariant. -/
theorem reachFresh_inv {enc : String → Vec} {s : VectorStore}
    (h : ReachFresh enc s) : StoreInv s := by
  induction h with
  | empty => exact storeInv_empty
  | insert did dn chunks _ hfresh ih => exact storeInv_insert enc ih did dn chunks hfresh
  | delete did _ ih => exact storeInv_delete ih did
  | compact _ ih => exact storeInv_rebuild enc ih

/-- Every record returned by the collection loop sits, non-deleted, at
some position of the metadata list. -/
theorem walkHits_sound (meta : List (Option ChunkMeta)) :
    ∀ (hits : List (Int × Nat)) (k : Nat) (hit : SearchHit),
    hit ∈ walkHits meta k hits →
    ∃ p : Nat, meta[p]? = some (some hit.meta) ∧ hit.meta.deleted = false := by
  intro hits
  induction hits with
  | nil => intro k hit h; simp [walkHits] at h
  | cons di rest ih =>
      intro k hit h
      rw [walkHits] at h
      cases hm : meta[di.2]? with
      | none =>
          simp only [hm] at h
          exact ih k hit h
      | some o =>
          cases o with
          | none =>
              simp only [hm] at h
              exact ih k hit h
          | some m =>
              simp only [hm] at h
              by_cases hdel : m.deleted
              · rw [if_pos hdel] at h
                exact ih k hit h
              · rw [if_neg hdel] at h
                by_cases hk : k ≤ 1
                · rw [if_pos hk] at h
                  simp at h
                  subst h
                  exact ⟨di.2, hm, by simpa using hdel⟩
                · rw [if_neg hk] at h
                  rcases List.mem_cons.mp h with h1 | h1
                  · subst h1
                    exact ⟨di.2, hm, by simpa using hdel⟩
                  · exact ih (k - 1) hit h1

/-- Every hit returned by `search` is a non-deleted record of the store. -/
theorem search_sound (enc : String → Vec) (s : VectorStore) (q : String) (k : Nat)
    (hit : SearchHit) (h : hit ∈ VectorStore.search enc s q k) :
    ∃ p : Nat, s.meta[p]? = some (some hit.meta) ∧ hit.meta.deleted = false := by
  unfold VectorStore.search at h
  split at h
  · simp at h
  · exact walkHits_sound s.meta _ k hit h

/-- C2 (amended): in every state reachable from the empty store when each
insert with a non-empty chunk list targets a document id absent from the
map (callers delete first), the union of all documents' position sets is
exactly the set of non-deleted positions, and the owned positions are
pairwise distinct — each position belongs to at most one document. -/
theorem c2_doc_map_invariant (enc : String → Vec) (s : VectorStore)
    (h : ReachFresh enc s) :
    (∀ p, p ∈ ownedPositions s ↔ aliveAt s p) ∧ (ownedPositions s).Nodup := by
  have inv := reachFresh_inv h
  refine ⟨fun p => ⟨fun hp => ?_, inv.alive_owned p⟩, inv.owned_nodup⟩
  obtain ⟨did, ps, he, hpe⟩ := mem_ownedPositions.mp hp
  obtain ⟨m, hm, hdel, -⟩ := inv.owner_match did ps he p hpe
  exact ⟨m, hm, hdel⟩

/-- C2 (witness): the amended invariant at the store holding one freshly
inserted document. -/
theorem c2_doc_map_invariant_witness :
    (∀ p, p ∈ ownedPositions (add_chunks (fun _ => ([0] : Vec)) emptyStore "A" "doc" ["a"]).1
        ↔ aliveAt (add_chunks (fun _ => ([0] : Vec)) emptyStore "A" "doc" ["a"]).1 p) ∧
      (ownedPositions (add_chunks (fun _ => ([0] : Vec)) emptyStore "A" "doc" ["a"]).1).Nodup :=
  c2_doc_map_invariant _ _
    (ReachFresh.insert "A" "doc" ["a"] ReachFresh.empty (fun _ => rfl))

/-- C3 (amended): in every state reachable with the delete-before-reinsert
discipline, after `delete_doc d` no search result carries `doc_id = d`. -/
theorem c3_delete_visibility (enc : String → Vec) {s : VectorStore}
    (h : ReachFresh enc s) (d q : String) (k : Nat) :
    ∀ hit ∈ VectorStore.search enc (delete_doc s d) q k, hit.meta.doc_id ≠ d := by
  intro hit hmem hdid
  have inv' : StoreInv (delete_doc s d) := reachFresh_inv (ReachFresh.delete d h)
  obtain ⟨p, hp, hdel⟩ := search_sound enc (delete_doc s d) q k hit hmem
  have howned := inv'.alive_owned p ⟨hit.meta, hp, hdel⟩
  obtain ⟨did', ps', hmem', hpps⟩ := mem_ownedPositions.mp howned
  obtain ⟨m, hm, -, hdoc⟩ := inv'.owner_match did' ps' hmem' p hpps
  rw [hp] at hm
  cases hm
  have hmem'' : (did', ps') ∈ dictRemove s.doc_map d := hmem'
  have hne := (mem_dictRemove_iff.mp hmem'').2
  rw [← hdoc, hdid] at hne
  exact hne rfl

/-- C3 (witness): deleting an absent document `"A"` from a store holding
document `"B"`, a search still returns `"B"`'s record, and the theorem
yields its owner is not `"A"`. -/
theorem c3_delete_visibility_witness :
    (⟨⟨"B", "doc", 0, "b", false⟩, 0⟩ : SearchHit).meta.doc_id ≠ "A" :=
  c3_delete_visibility (fun _ => ([0] : Vec))
    (ReachFresh.insert "B" "doc" ["b"] ReachFresh.empty (fun _ => rfl)) "A" "q" 5
    ⟨⟨"B", "doc", 0, "b", false⟩, 0⟩ (by decide)

end AgenticRag

